import Mathlib

/-
  Verification development for the ramlfications resolution and validation
  engine (module raml.py and its spec). Data model and operations are
  embedded shallowly; parts of the engine that live outside raml.py are
  modelled from the spec, as marked in the doc comments.
-/

namespace Ramlfications

/-- Error kinds of the resolution/validation engine (spec section 7). -/
inductive RamlError where
  | missingField (name : String)
  | undefinedResourceType (name : String)
  | undefinedTrait (name : String)
  | undefinedSecurityScheme (name : String)
  | cyclicInheritance (name : String)
  | invalidRootNode (what : String)
  deriving DecidableEq

/-- Decidable equality of fallible results, used to evaluate the engine
on concrete inputs. -/
instance {ε α : Type} [DecidableEq ε] [DecidableEq α] :
    DecidableEq (Except ε α) := fun a b =>
  match a, b with
  | .ok x, .ok y =>
    if h : x = y then isTrue (by rw [h])
    else isFalse (by intro hc; cases hc; exact h rfl)
  | .error e, .error f =>
    if h : e = f then isTrue (by rw [h])
    else isFalse (by intro hc; cases hc; exact h rfl)
  | .ok _, .error _ => isFalse (by intro hc; cases hc)
  | .error _, .ok _ => isFalse (by intro hc; cases hc)

/-- First-match association-list lookup over string keys, used for raw
mappings and registries throughout the embedding. -/
def lookupF {β : Type} : List (String × β) → String → Option β
  | [], _ => none
  | (k0, v) :: rest, k => if k0 = k then some v else lookupF rest k

/- ## HTTP methods (AVAILABLE_METHODS in raml.py) -/

/-- The list of recognized HTTP verbs, verbatim from raml.py. -/
def AVAILABLE_METHODS : List String :=
  ["get", "post", "put", "delete", "patch", "head",
   "options", "trace", "connect"]

/-- Modelled from the spec: a resource-type method name may carry a
trailing question mark marking the block optional; the base verb is the
name with that marker stripped. -/
def stripOptional (m : String) : String :=
  match m.data.getLast? with
  | some c => if c = '?' then String.mk m.data.dropLast else m
  | none => m

/-- Modelled from the spec: a method (optionally suffixed for resource
types) is recognized when its base verb is an available method. -/
def recognizedRTMethod (m : String) : Bool :=
  decide (stripOptional m ∈ AVAILABLE_METHODS)

/- ## Root-level validators (validators referenced from raml.py;
     their bodies live in validate.py, absent from the sources) -/

/-- Prefix test over character lists: the first list is a prefix of the
second. -/
def isPrefixL : List Char → List Char → Bool
  | [], _ => true
  | _ :: _, [] => false
  | p :: ps, c :: cs => p = c && isPrefixL ps cs

/-- Infix test over character lists: the first list occurs contiguously
inside the second. -/
def isSubL (pat : List Char) : List Char → Bool
  | [] => isPrefixL pat []
  | c :: cs => isPrefixL pat (c :: cs) || isSubL pat cs

/-- Substring test over the character lists of the two strings. -/
def containsSubstr (s pat : String) : Bool :=
  isSubL pat.data s.data

/-- Modelled from the spec: the root title is required and non-empty. -/
def root_title (t : Option String) : Except RamlError Unit :=
  match t with
  | none => .error (.missingField "title")
  | some s => if s = "" then .error (.invalidRootNode "title") else .ok ()

/-- Modelled from the spec: when base_uri contains the version
placeholder, the version field must be present. -/
def root_version (baseUri : String) (version : Option String) :
    Except RamlError Unit :=
  if containsSubstr baseUri "{version}" then
    match version with
    | none => .error (.missingField "version")
    | some _ => .ok ()
  else .ok ()

/-- Modelled from the spec: the list of top-level resources must be
non-empty. -/
def root_resources {α : Type} (rs : List α) : Except RamlError Unit :=
  match rs with
  | [] => .error (.invalidRootNode "resources")
  | _ :: _ => .ok ()

/- ## Reference validators (assigned_res_type, assigned_traits in
     raml.py; bodies modelled from the spec) -/

/-- Modelled from the spec: an assigned resource-type name must be a key
of the resource-type registry; no assignment is fine. -/
def assigned_res_type (registry : List String) (t : Option String) :
    Except RamlError Unit :=
  match t with
  | none => .ok ()
  | some n =>
    if n ∈ registry then .ok () else .error (.undefinedResourceType n)

/-- Modelled from the spec: every assigned trait name must be a key of
the trait registry; the first unresolved name fails. -/
def assigned_traits (registry : List String) :
    List String → Except RamlError Unit
  | [] => .ok ()
  | n :: rest =>
    if n ∈ registry then assigned_traits registry rest
    else .error (.undefinedTrait n)

/- ## Security scheme references (spec section 4.3) -/

/-- A named security scheme definition held by the registry. -/
structure SchemeDefn where
  name : String
  kind : String
  deriving DecidableEq

/-- A securedBy reference: a bare scheme name, or a name together with a
settings mapping. -/
inductive SecRef where
  | bare (n : String)
  | withSettings (n : String) (settings : List (String × String))
  deriving DecidableEq

/-- The scheme name a securedBy reference points at. -/
def secRefName : SecRef → String
  | .bare n => n
  | .withSettings n _ => n

/-- The per-use settings carried by a securedBy reference. -/
def secRefSettings : SecRef → List (String × String)
  | .bare _ => []
  | .withSettings _ s => s

/-- ASCII lowering of one character. -/
def lowerChar (c : Char) : Char :=
  if 'A' ≤ c ∧ c ≤ 'Z' then Char.ofNat (c.toNat + 32) else c

/-- ASCII lowering of a string. -/
def lowerStr (s : String) : String :=
  String.mk (s.data.map lowerChar)

/-- Modelled from the spec: the special scheme names that mean
explicitly unsecured, case-insensitively. -/
def isNullScheme (n : String) : Bool :=
  lowerStr n = "null" || lowerStr n = "none"

/-- A resolved securedBy entry: explicitly unsecured, or a registry
scheme paired with the per-use settings. -/
inductive ResolvedScheme where
  | unsecured
  | scheme (d : SchemeDefn) (settings : List (String × String))
  deriving DecidableEq

/-- Modelled from the spec: resolve a securedBy list against the scheme
registry; a non-null name absent from the registry fails. -/
def resolveSecuredBy (reg : List (String × SchemeDefn)) :
    List SecRef → Except RamlError (List ResolvedScheme)
  | [] => .ok []
  | r :: rest =>
    if isNullScheme (secRefName r) then
      match resolveSecuredBy reg rest with
      | .ok out => .ok (.unsecured :: out)
      | .error e => .error e
    else
      match lookupF reg (secRefName r) with
      | some d =>
        match resolveSecuredBy reg rest with
        | .ok out => .ok (.scheme d (secRefSettings r) :: out)
        | .error e => .error e
      | none => .error (.undefinedSecurityScheme (secRefName r))

/- ## Resource-type inheritance walk (spec section 4.5) -/

/-- A resource-type registry: each name maps to the optional name of the
type it inherits from. -/
abbrev RTRegistry := List (String × Option String)

/-- Modelled from the spec: visited-set walk along the inheritance
chain. Fuel-indexed so the recursion is structural; exhausted fuel
yields none, and the termination theorem shows it never does. -/
def walkChain (reg : RTRegistry) :
    Nat → List String → String → Option (Except RamlError (List String))
  | 0, _, _ => none
  | fuel + 1, visited, n =>
    if n ∈ visited then some (.error (.cyclicInheritance n))
    else
      match lookupF reg n with
      | none => some (.error (.undefinedResourceType n))
      | some none => some (.ok (visited ++ [n]))
      | some (some p) => walkChain reg fuel (visited ++ [n]) p

/-- Resolve the inheritance chain of a named resource type, with fuel
one more than the number of distinct registry keys. -/
def resolveInheritance (reg : RTRegistry) (n : String) :
    Option (Except RamlError (List String)) :=
  walkChain reg ((reg.map Prod.fst).dedup.length + 1) [] n

/- ## Root construction pipeline (spec section 4.7) -/

/-- A raw top-level resource entry: its path and declared methods. -/
structure RawResourceEntry where
  path : String
  methods : List String
  deriving DecidableEq

/-- A built resource of the pipeline: one node per declared method. -/
structure PResource where
  name : String
  path : String
  method : String
  absoluteUri : String
  deriving DecidableEq

/-- The raw document data the root builder consumes. -/
structure RamlInput where
  title : Option String
  version : Option String
  baseUri : String
  rawResources : List RawResourceEntry
  deriving DecidableEq

/-- The fully built root of the pipeline. -/
structure BuiltRoot where
  title : String
  version : Option String
  baseUri : String
  resources : List PResource
  deriving DecidableEq

/-- Modelled from the spec: build one ResourceNode per declared HTTP
method of each top-level raw entry, computing the absolute URI. -/
def buildResources (baseUri : String) (entries : List RawResourceEntry) :
    List PResource :=
  (entries.map (fun e =>
    e.methods.map (fun m =>
      { name := e.path, path := e.path, method := m,
        absoluteUri := baseUri ++ e.path : PResource }))).flatten

/-- Modelled from the spec: root construction validates root-level
invariants (title, version placeholder) before building the resource
tree, then requires a non-empty resource list. -/
def buildRoot (d : RamlInput) : Except RamlError BuiltRoot :=
  match root_title d.title with
  | .error e => .error e
  | .ok _ =>
    match root_version d.baseUri d.version with
    | .error e => .error e
    | .ok _ =>
      let rs := buildResources d.baseUri d.rawResources
      match root_resources rs with
      | .error e => .error e
      | .ok _ =>
        .ok { title := d.title.getD "", version := d.version,
              baseUri := d.baseUri, resources := rs }

/- ## RootNode attribute lifecycle (attrs class in raml.py) -/

/-- The RootNode attrs class of raml.py: the init-time attributes plus
the four attributes declared with init equal False, which hold none
until the engine assigns them after construction. -/
structure RootNodeAttrs where
  raml_file : String
  version : Option String
  base_uri : String
  title : String
  resource_types : Option (List String)
  traits : Option (List String)
  security_schemes : Option (List String)
  resources : Option (List PResource)
  deriving DecidableEq

/-- Construction of a RootNode: only the init-time attributes are set;
the four init-false attributes start unassigned. -/
def mkRootNodeAttrs (f : String) (v : Option String) (b t : String) :
    RootNodeAttrs :=
  { raml_file := f, version := v, base_uri := b, title := t,
    resource_types := none, traits := none,
    security_schemes := none, resources := none }

/-- The engine assigns the resource_types attribute after construction. -/
def assignResourceTypes (r : RootNodeAttrs) (xs : List String) :
    RootNodeAttrs :=
  { r with resource_types := some xs }

/-- The engine assigns the traits attribute after construction. -/
def assignTraits (r : RootNodeAttrs) (xs : List String) : RootNodeAttrs :=
  { r with traits := some xs }

/-- The engine assigns the security_schemes attribute after
construction. -/
def assignSecuritySchemes (r : RootNodeAttrs) (xs : List String) :
    RootNodeAttrs :=
  { r with security_schemes := some xs }

/-- The engine assigns the resources attribute after construction. -/
def assignResources (r : RootNodeAttrs) (xs : List PResource) :
    RootNodeAttrs :=
  { r with resources := some xs }

/-- The assembly the engine performs after constructing the RootNode:
registries first, then the resource tree. -/
def assembleRoot (r : RootNodeAttrs) (rts ts ss : List String)
    (rs : List PResource) : RootNodeAttrs :=
  assignResources
    (assignTraits (assignSecuritySchemes (assignResourceTypes r rts) ss) ts)
    rs

/- ## Absolute URIs along the resource tree (spec section 4.6) -/

/-- A resource tree position: a top-level resource or a child of a
parent resource, each carrying its own path segment. -/
inductive RNodeT where
  | top (path : String)
  | child (path : String) (parent : RNodeT)

/-- Modelled from the spec: the full path of a node is the parent chain
paths concatenated with its own. -/
def fullPath : RNodeT → String
  | .top p => p
  | .child p par => fullPath par ++ p

/-- Modelled from the spec: the absolute URI is the root base URI
concatenated with the full path. -/
def absolute_uri (baseUri : String) (n : RNodeT) : String :=
  baseUri ++ fullPath n

/-- The ordered chain of path segments from the top-level ancestor down
to the node itself. -/
def pathChain : RNodeT → List String
  | .top p => [p]
  | .child p par => pathChain par ++ [p]

/-- Concatenation of a list of path segments. -/
def concatPaths : List String → String
  | [] => ""
  | p :: rest => p ++ concatPaths rest

/-- Count of adjacent double-slash pairs in a character list. -/
def dsCount : List Char → Nat
  | c1 :: c2 :: rest =>
    (if c1 = '/' ∧ c2 = '/' then 1 else 0) + dsCount (c2 :: rest)
  | _ => 0

/-- A well-formed path segment: starts with a slash and does not end
with one. -/
def WfSegment (p : String) : Prop :=
  p.data.head? = some '/' ∧ p.data.getLast? ≠ some '/'

/-- Well-formedness of a segment is decidable. -/
instance (p : String) : Decidable (WfSegment p) :=
  inferInstanceAs (Decidable (p.data.head? = some '/' ∧
    p.data.getLast? ≠ some '/'))

/- ## Field merging with provenance ranks (spec sections 4.4 to 4.6) -/

/-- A raw field mapping: ordered field name and value pairs. -/
abbrev Fields := List (String × String)

/-- A merged field value tagged with its source precedence rank:
inherited 0, trait 1, resource type 2, own 3. -/
structure Tagged where
  value : String
  rank : Nat
  deriving DecidableEq

/-- The merged field state during overlay application. -/
abbrev TaggedFields := List (String × Tagged)

/-- Replace the first entry of the given key. -/
def replaceEntry : TaggedFields → String → Tagged → TaggedFields
  | [], _, _ => []
  | (k0, t0) :: rest, k, t =>
    if k0 = k then (k, t) :: rest else (k0, t0) :: replaceEntry rest k t

/-- Modelled from the spec: a contribution replaces the current value of
a field only when its rank is at least the rank of the value already
there; a fresh field is appended. -/
def setField (acc : TaggedFields) (k v : String) (r : Nat) : TaggedFields :=
  match lookupF acc k with
  | some t => if t.rank ≤ r then replaceEntry acc k ⟨v, r⟩ else acc
  | none => acc ++ [(k, ⟨v, r⟩)]

/-- Apply one overlay of fields at the given rank, in declaration
order. -/
def applyOverlay (acc : TaggedFields) (ov : Fields) (r : Nat) :
    TaggedFields :=
  ov.foldl (fun a kv => setField a kv.1 kv.2 r) acc

/-- Tag a raw field mapping with a rank. -/
def tagFields (f : Fields) (r : Nat) : TaggedFields :=
  f.map (fun kv => (kv.1, ⟨kv.2, r⟩))

/-- A resource type template: per-method blocks plus a method-agnostic
fallback block. -/
structure RType where
  name : String
  methodBlocks : List (String × Fields)
  agnostic : Fields

/-- Modelled from the spec: select the method-specific block when the
resource method matches one, else fall back to the agnostic block. -/
def selectBlock (rt : RType) (m : String) : Fields :=
  match lookupF rt.methodBlocks m with
  | some f => f
  | none => rt.agnostic

/-- Apply the trait overlays in declared list order, each at trait
rank. -/
def applyTraits (acc : TaggedFields) (traits : List Fields) :
    TaggedFields :=
  traits.foldl (fun a t => applyOverlay a t 1) acc

/-- Modelled from the spec: overlay application order when resolving a
node: ancestor fields, then the resource-type block, then trait
overlays in declared order, then the own explicit fields. -/
def resolveFields (inherited : Fields) (rt : RType) (method : String)
    (traits : List Fields) (own : Fields) : TaggedFields :=
  applyOverlay
    (applyTraits
      (applyOverlay (tagFields inherited 0) (selectBlock rt method) 2)
      traits)
    own 3

/-- The resolved value of one field after overlay application. -/
def resolvedValue (tf : TaggedFields) (k : String) : Option String :=
  (lookupF tf k).map (fun t => t.value)

/-- The value a trait list contributes for a field: the last trait in
declared order that carries the field wins. -/
def traitsValue : List Fields → String → Option String
  | [], _ => none
  | t :: rest, k =>
    match traitsValue rest k with
    | some v => some v
    | none => lookupF t k

/- ## Helper lemmas -/

/-- Two strings with the same character data are equal. -/
theorem string_data_inj {a b : String} (h : a.data = b.data) : a = b := by
  cases a; cases b; simp_all

/-- A successful lookup means the key occurs among the mapped keys. -/
theorem lookupF_mem {β : Type} :
    ∀ (l : List (String × β)) (k : String) (v : β),
      lookupF l k = some v → (k, v) ∈ l
  | [], _, _, h => by simp [lookupF] at h
  | (k0, v0) :: rest, k, v, h => by
    by_cases hk : k0 = k
    · subst hk
      rw [lookupF, if_pos rfl] at h
      exact Option.some.inj h ▸ List.mem_cons_self _ _
    · rw [lookupF, if_neg hk] at h
      exact List.mem_cons_of_mem _ (lookupF_mem rest k v h)

/-- A lookup fails exactly when the key is not among the mapped keys. -/
theorem lookupF_eq_none_iff {β : Type} :
    ∀ (l : List (String × β)) (k : String),
      lookupF l k = none ↔ k ∉ l.map Prod.fst
  | [], k => by simp [lookupF]
  | (k0, v0) :: rest, k => by
    by_cases hk : k0 = k
    · subst hk; simp [lookupF]
    · rw [lookupF, if_neg hk, lookupF_eq_none_iff rest k]
      constructor
      · intro h hmem
        rw [List.map_cons] at hmem
        rcases List.mem_cons.mp hmem with h1 | h2
        · exact hk h1.symm
        · exact h h2
      · intro h hmem
        exact h (by rw [List.map_cons]; exact List.mem_cons_of_mem _ hmem)

/- ## C10: recognized HTTP methods -/

/-- C10: the engine recognizes exactly nine lowercase HTTP verbs, and a
method name, optionally suffixed with the question mark used by resource
types, is recognized precisely when its base verb is among those nine. -/
theorem recognized_methods_exactly_nine (m : String) :
    AVAILABLE_METHODS.length = 9 ∧
    (recognizedRTMethod m = true ↔
      (m ∈ AVAILABLE_METHODS ∨ ∃ v ∈ AVAILABLE_METHODS, m = v ++ "?")) := by
  refine ⟨by decide, ?_⟩
  rw [recognizedRTMethod, decide_eq_true_iff]
  constructor
  · intro h
    rw [stripOptional] at h
    cases hl : m.data.getLast? with
    | none => rw [hl] at h; exact Or.inl h
    | some c =>
      rw [hl] at h
      by_cases hc : c = '?'
      · subst hc
        have h2 : (if ('?' : Char) = '?' then String.mk m.data.dropLast
            else m) ∈ AVAILABLE_METHODS := h
        rw [if_pos rfl] at h2
        refine Or.inr ⟨String.mk m.data.dropLast, h2, ?_⟩
        have hne : m.data ≠ [] := by
          intro h0; rw [h0] at hl; simp at hl
        have hlast : m.data.getLast hne = '?' := by
          have hg := List.getLast?_eq_getLast m.data hne
          rw [hg] at hl
          exact Option.some.inj hl
        apply string_data_inj
        rw [String.data_append]
        show m.data = m.data.dropLast ++ ['?']
        rw [← hlast]
        exact (List.dropLast_append_getLast hne).symm
      · have h2 : (if c = '?' then String.mk m.data.dropLast
            else m) ∈ AVAILABLE_METHODS := h
        rw [if_neg hc] at h2
        exact Or.inl h2
  · intro h
    rcases h with hm | ⟨v, hv, rfl⟩
    · simp only [AVAILABLE_METHODS, List.mem_cons, List.not_mem_nil,
        or_false] at hm
      rcases hm with rfl | rfl | rfl | rfl | rfl | rfl | rfl | rfl | rfl <;>
        decide
    · simp only [AVAILABLE_METHODS, List.mem_cons, List.not_mem_nil,
        or_false] at hv
      rcases hv with rfl | rfl | rfl | rfl | rfl | rfl | rfl | rfl | rfl <;>
        decide

/- ## C5: resource-type and trait reference validators -/

/-- C5: the assigned resource-type validator succeeds exactly when any
assigned name is a registry key and fails with the undefined
resource-type error exactly when it is not, and likewise the assigned
trait validator for every name of the trait list. -/
theorem reference_validators_resolve (reg treg : List String)
    (t : Option String) (names : List String) :
    (assigned_res_type reg t = .ok () ↔ ∀ n, t = some n → n ∈ reg) ∧
    ((∃ n, assigned_res_type reg t = .error (.undefinedResourceType n)) ↔
      ∃ n, t = some n ∧ n ∉ reg) ∧
    (assigned_traits treg names = .ok () ↔ ∀ n ∈ names, n ∈ treg) ∧
    ((∃ n, assigned_traits treg names = .error (.undefinedTrait n)) ↔
      ∃ n ∈ names, n ∉ treg) := by
  refine ⟨?_, ?_, ?_, ?_⟩
  · cases t with
    | none => simp [assigned_res_type]
    | some n => by_cases h : n ∈ reg <;> simp [assigned_res_type, h]
  · cases t with
    | none => simp [assigned_res_type]
    | some n => by_cases h : n ∈ reg <;> simp [assigned_res_type, h]
  · induction names with
    | nil => simp [assigned_traits]
    | cons n rest ih =>
      by_cases h : n ∈ treg <;> simp [assigned_traits, h, ih]
  · induction names with
    | nil => simp [assigned_traits]
    | cons n rest ih =>
      by_cases h : n ∈ treg <;> simp [assigned_traits, h, ih]

/- ## C7: non-empty top-level resource list -/

/-- Characterization of a successful root construction. -/
theorem buildRoot_ok_iff (d : RamlInput) (r : BuiltRoot) :
    buildRoot d = .ok r ↔
      root_title d.title = .ok () ∧
      root_version d.baseUri d.version = .ok () ∧
      buildResources d.baseUri d.rawResources ≠ [] ∧
      r = { title := d.title.getD "", version := d.version,
            baseUri := d.baseUri,
            resources := buildResources d.baseUri d.rawResources } := by
  cases h1 : root_title d.title with
  | error e => simp [buildRoot, h1]
  | ok u =>
    cases u
    cases h2 : root_version d.baseUri d.version with
    | error e => simp [buildRoot, h1, h2]
    | ok u2 =>
      cases u2
      cases h3 : buildResources d.baseUri d.rawResources with
      | nil => simp [buildRoot, h1, h2, h3, root_resources]
      | cons x xs =>
        simp only [buildRoot, h1, h2, h3, root_resources]
        constructor
        · intro h
          exact ⟨trivial, trivial, by simp, (Except.ok.inj h).symm⟩
        · intro h
          rw [h.2.2.2]

/-- C7: a successfully built root has a non-empty resource list, and an
empty built resource list fails the root resources validator. -/
theorem built_root_resources_nonempty (d : RamlInput) (r : BuiltRoot) :
    (buildRoot d = .ok r → r.resources ≠ []) ∧
    root_resources ([] : List PResource) = .error (.invalidRootNode "resources") := by
  constructor
  · intro h
    obtain ⟨h1, h2, h3, rfl⟩ := (buildRoot_ok_iff d r).mp h
    simpa using h3
  · rfl

/-- Closed instance of the C7 theorem at a concrete document. -/
theorem built_root_resources_nonempty_witness :
    buildRoot ⟨some "Example API", none, "https://api.example.com",
        [⟨"/widgets", ["get"]⟩]⟩ =
      .ok ⟨"Example API", none, "https://api.example.com",
        [⟨"/widgets", "/widgets", "get", "https://api.example.com/widgets"⟩]⟩ ∧
    (⟨"Example API", none, "https://api.example.com",
        [⟨"/widgets", "/widgets", "get", "https://api.example.com/widgets"⟩]⟩ :
      BuiltRoot).resources ≠ [] := by
  constructor
  · decide
  · exact (built_root_resources_nonempty
      ⟨some "Example API", none, "https://api.example.com",
        [⟨"/widgets", ["get"]⟩]⟩ _).1 (by decide)

/- ## C8: required non-empty title -/

/-- C8: root construction fails on an absent title with the missing
field error and on an empty title with the invalid root error, in both
cases before any resource building, and a successfully built root
carries a non-empty title. -/
theorem root_title_required (d : RamlInput) :
    (d.title = none → buildRoot d = .error (.missingField "title")) ∧
    (d.title = some "" → buildRoot d = .error (.invalidRootNode "title")) ∧
    (∀ r, buildRoot d = .ok r → r.title ≠ "") := by
  refine ⟨?_, ?_, ?_⟩
  · intro h; rw [buildRoot, h]; rfl
  · intro h; rw [buildRoot, h]; rfl
  · intro r h
    obtain ⟨h1, h2, h3, rfl⟩ := (buildRoot_ok_iff d r).mp h
    cases ht : d.title with
    | none => simp only [ht, root_title] at h1; cases h1
    | some s =>
      simp only [ht, root_title] at h1
      by_cases hs : s = ""
      · rw [if_pos hs] at h1; cases h1
      · simp [ht, hs]

/-- Closed instance of the C8 theorem at a concrete document with no
title. -/
theorem root_title_required_witness :
    (⟨none, none, "https://api.example.com", [⟨"/widgets", ["get"]⟩]⟩ :
        RamlInput).title = none ∧
    buildRoot ⟨none, none, "https://api.example.com", [⟨"/widgets", ["get"]⟩]⟩ =
      .error (.missingField "title") :=
  ⟨rfl, (root_title_required
    ⟨none, none, "https://api.example.com", [⟨"/widgets", ["get"]⟩]⟩).1 rfl⟩

/- ## C4: version placeholder consistency -/

/-- C4: with a valid title, a base URI containing the version
placeholder and no version field makes root construction fail with the
missing field error naming version, before any resource building; with
a version present the placeholder check passes. -/
theorem version_placeholder_check (d : RamlInput)
    (ht : root_title d.title = .ok ())
    (hb : containsSubstr d.baseUri "{version}" = true) :
    (d.version = none → buildRoot d = .error (.missingField "version")) ∧
    (∀ v, root_version d.baseUri (some v) = .ok ()) := by
  constructor
  · intro hv
    have h2 : root_version d.baseUri d.version =
        .error (.missingField "version") := by
      simp [root_version, hb, hv]
    simp [buildRoot, ht, h2]
  · intro v
    simp [root_version, hb]

/-- Closed instance of the C4 theorem at a concrete document lacking a
version. -/
theorem version_placeholder_check_witness :
    root_title (⟨some "Example API", none, "https://api.example.com/{version}",
        [⟨"/widgets", ["get"]⟩]⟩ : RamlInput).title = .ok () ∧
    containsSubstr "https://api.example.com/{version}" "{version}" = true ∧
    buildRoot ⟨some "Example API", none, "https://api.example.com/{version}",
        [⟨"/widgets", ["get"]⟩]⟩ = .error (.missingField "version") :=
  ⟨by decide, by decide,
    (version_placeholder_check
      ⟨some "Example API", none, "https://api.example.com/{version}",
        [⟨"/widgets", ["get"]⟩]⟩ (by decide) (by decide)).1 rfl⟩

/- ## C9: RootNode attribute lifecycle -/

/-- C9 counterexample: the engine assignment of the resources attribute
changes an attribute of an already constructed RootNode, so the node is
not immutable after construction. -/
theorem rootnode_not_immutable_counterexample :
    (assignResources
        (mkRootNodeAttrs "api.raml" none "https://api.example.com" "Example API")
        [⟨"/widgets", "/widgets", "get", "https://api.example.com/widgets"⟩]).resources
      ≠ (mkRootNodeAttrs "api.raml" none "https://api.example.com"
          "Example API").resources := by
  decide

/-- C9 amended: the post-construction assembly assigns exactly the four
attributes declared with init equal False, and never changes the
init-time attributes of the constructed RootNode. -/
theorem rootnode_assembly_touches_only_init_false (r : RootNodeAttrs)
    (rts ts ss : List String) (rs : List PResource) :
    (assembleRoot r rts ts ss rs).raml_file = r.raml_file ∧
    (assembleRoot r rts ts ss rs).version = r.version ∧
    (assembleRoot r rts ts ss rs).base_uri = r.base_uri ∧
    (assembleRoot r rts ts ss rs).title = r.title ∧
    (assembleRoot r rts ts ss rs).resource_types = some rts ∧
    (assembleRoot r rts ts ss rs).traits = some ts ∧
    (assembleRoot r rts ts ss rs).security_schemes = some ss ∧
    (assembleRoot r rts ts ss rs).resources = some rs := by
  simp [assembleRoot, assignResources, assignTraits, assignSecuritySchemes,
    assignResourceTypes]

/- ## C6: securedBy reference resolution -/

/-- A successful securedBy resolution means every reference other than
the special null names resolves in the registry. -/
theorem resolveSecuredBy_ok_resolves (reg : List (String × SchemeDefn)) :
    ∀ (refs : List SecRef) (out : List ResolvedScheme),
      resolveSecuredBy reg refs = .ok out →
      ∀ r ∈ refs, isNullScheme (secRefName r) = false →
        ∃ d, lookupF reg (secRefName r) = some d
  | [], _, _, r, hr, _ => absurd hr (List.not_mem_nil r)
  | r0 :: rest, out, h, r, hr, hn => by
    rcases List.mem_cons.mp hr with rfl | hr2
    · simp only [resolveSecuredBy, hn, Bool.false_eq_true, if_false] at h
      cases hl : lookupF reg (secRefName r) with
      | some d => exact ⟨d, rfl⟩
      | none => rw [hl] at h; cases h
    · by_cases hn0 : isNullScheme (secRefName r0) = true
      · simp only [resolveSecuredBy, hn0, if_true] at h
        cases hrec : resolveSecuredBy reg rest with
        | ok out2 =>
          exact resolveSecuredBy_ok_resolves reg rest out2 hrec r hr2 hn
        | error e => rw [hrec] at h; cases h
      · have hn0f : isNullScheme (secRefName r0) = false :=
          Bool.eq_false_iff.mpr hn0
        simp only [resolveSecuredBy, hn0f, Bool.false_eq_true, if_false] at h
        cases hl : lookupF reg (secRefName r0) with
        | none => rw [hl] at h; cases h
        | some d =>
          rw [hl] at h
          cases hrec : resolveSecuredBy reg rest with
          | ok out2 =>
            exact resolveSecuredBy_ok_resolves reg rest out2 hrec r hr2 hn
          | error e => rw [hrec] at h; cases h

/-- SecuredBy resolution fails with the undefined security scheme error
exactly when some non-null reference does not resolve in the registry. -/
theorem resolveSecuredBy_error_iff (reg : List (String × SchemeDefn))
    (refs : List SecRef) :
    (∃ n, resolveSecuredBy reg refs = .error (.undefinedSecurityScheme n)) ↔
      ∃ r ∈ refs, isNullScheme (secRefName r) = false ∧
        lookupF reg (secRefName r) = none := by
  induction refs with
  | nil => simp [resolveSecuredBy]
  | cons r0 rest ih =>
    by_cases hn0 : isNullScheme (secRefName r0) = true
    · cases hrec : resolveSecuredBy reg rest with
      | ok out =>
        rw [hrec] at ih
        simp only [resolveSecuredBy, hn0, if_true, hrec]
        constructor
        · rintro ⟨n, hn⟩; cases hn
        · rintro ⟨r, hr, hf, hl⟩
          rcases List.mem_cons.mp hr with rfl | h2
          · rw [hn0] at hf; cases hf
          · exact absurd (ih.mpr ⟨r, h2, hf, hl⟩) (by rintro ⟨n, hn⟩; cases hn)
      | error e =>
        rw [hrec] at ih
        simp only [resolveSecuredBy, hn0, if_true, hrec]
        rw [ih]
        constructor
        · rintro ⟨r, h2, hf, hl⟩
          exact ⟨r, List.mem_cons_of_mem _ h2, hf, hl⟩
        · rintro ⟨r, hr, hf, hl⟩
          rcases List.mem_cons.mp hr with rfl | h2
          · rw [hn0] at hf; cases hf
          · exact ⟨r, h2, hf, hl⟩
    · have hn0f : isNullScheme (secRefName r0) = false :=
        Bool.eq_false_iff.mpr hn0
      cases hl0 : lookupF reg (secRefName r0) with
      | none =>
        simp only [resolveSecuredBy, hn0f, Bool.false_eq_true, if_false, hl0]
        constructor
        · intro _
          exact ⟨r0, List.mem_cons_self r0 rest, hn0f, hl0⟩
        · intro _
          exact ⟨secRefName r0, rfl⟩
      | some d =>
        cases hrec : resolveSecuredBy reg rest with
        | ok out =>
          rw [hrec] at ih
          simp only [resolveSecuredBy, hn0f, Bool.false_eq_true, if_false,
            hl0, hrec]
          constructor
          · rintro ⟨n, hn⟩; cases hn
          · rintro ⟨r, hr, hf, hl⟩
            rcases List.mem_cons.mp hr with rfl | h2
            · rw [hl0] at hl; cases hl
            · exact absurd (ih.mpr ⟨r, h2, hf, hl⟩)
                (by rintro ⟨n, hn⟩; cases hn)
        | error e =>
          rw [hrec] at ih
          simp only [resolveSecuredBy, hn0f, Bool.false_eq_true, if_false,
            hl0, hrec]
          rw [ih]
          constructor
          · rintro ⟨r, h2, hf, hl⟩
            exact ⟨r, List.mem_cons_of_mem _ h2, hf, hl⟩
          · rintro ⟨r, hr, hf, hl⟩
            rcases List.mem_cons.mp hr with rfl | h2
            · rw [hl0] at hl; cases hl
            · exact ⟨r, h2, hf, hl⟩

/-- C6: securedBy resolution fails with the undefined security scheme
error exactly when a non-null referenced name is absent from the scheme
registry, and a successful resolution leaves no unresolved reference. -/
theorem secured_by_references_resolve (reg : List (String × SchemeDefn))
    (refs : List SecRef) :
    ((∃ n, resolveSecuredBy reg refs = .error (.undefinedSecurityScheme n)) ↔
      ∃ r ∈ refs, isNullScheme (secRefName r) = false ∧
        lookupF reg (secRefName r) = none) ∧
    (∀ out, resolveSecuredBy reg refs = .ok out →
      ∀ r ∈ refs, isNullScheme (secRefName r) = false →
        ∃ d, lookupF reg (secRefName r) = some d) :=
  ⟨resolveSecuredBy_error_iff reg refs,
    fun out h => resolveSecuredBy_ok_resolves reg refs out h⟩

/-- Closed instance of the C6 theorem at a concrete registry and
reference list. -/
theorem secured_by_references_resolve_witness :
    resolveSecuredBy [("oauth_2_0", ⟨"oauth_2_0", "OAuth 2.0"⟩)]
        [SecRef.bare "oauth_2_0", SecRef.bare "null"] =
      .ok [.scheme ⟨"oauth_2_0", "OAuth 2.0"⟩ [], .unsecured] ∧
    isNullScheme "oauth_2_0" = false ∧
    (∃ d, lookupF [("oauth_2_0", (⟨"oauth_2_0", "OAuth 2.0"⟩ : SchemeDefn))]
      "oauth_2_0" = some d) :=
  ⟨by decide, by decide,
    (secured_by_references_resolve
        [("oauth_2_0", ⟨"oauth_2_0", "OAuth 2.0"⟩)]
        [SecRef.bare "oauth_2_0", SecRef.bare "null"]).2
      [ResolvedScheme.scheme ⟨"oauth_2_0", "OAuth 2.0"⟩ [],
        ResolvedScheme.unsecured] (by decide)
      (SecRef.bare "oauth_2_0") (by decide) (by decide)⟩

/- ## C3: termination and cycle detection of the inheritance walk -/

/-- Filtering by a weaker predicate keeps at least as many elements. -/
theorem length_filter_mono {α : Type} (l : List α) (p q : α → Bool)
    (h : ∀ x, p x = true → q x = true) :
    (l.filter p).length ≤ (l.filter q).length := by
  induction l with
  | nil => simp
  | cons x xs ih =>
    by_cases hp : p x = true
    · rw [List.filter_cons, List.filter_cons, if_pos hp, if_pos (h x hp)]
      simpa using ih
    · rw [List.filter_cons, if_neg hp]
      cases hq : q x with
      | true =>
        rw [List.filter_cons, if_pos (by rw [hq])]
        exact Nat.le_trans ih (by simp)
      | false =>
        rw [List.filter_cons, if_neg (by rw [hq]; simp)]
        exact ih

/-- Filtering by a strictly weaker predicate, witnessed by one element
of the list, keeps strictly fewer elements. -/
theorem length_filter_lt {α : Type} (l : List α) (p q : α → Bool)
    (h : ∀ x, p x = true → q x = true) (a : α) (ha : a ∈ l)
    (hqa : q a = true) (hpa : p a = false) :
    (l.filter p).length < (l.filter q).length := by
  induction l with
  | nil => cases ha
  | cons x xs ih =>
    rcases List.mem_cons.mp ha with rfl | hmem
    · rw [List.filter_cons, List.filter_cons, if_neg (by rw [hpa]; simp),
        if_pos (by rw [hqa])]
      exact Nat.lt_succ_of_le (length_filter_mono xs p q h)
    · by_cases hp : p x = true
      · rw [List.filter_cons, List.filter_cons, if_pos hp, if_pos (h x hp)]
        simpa using ih hmem
      · rw [List.filter_cons, if_neg hp]
        cases hq : q x with
        | true =>
          rw [List.filter_cons, if_pos (by rw [hq])]
          exact Nat.lt_succ_of_le (Nat.le_of_lt (ih hmem))
        | false =>
          rw [List.filter_cons, if_neg (by rw [hq]; simp)]
          exact ih hmem

/-- The number of distinct registry keys not yet visited. -/
def unvisitedCount (reg : RTRegistry) (visited : List String) : Nat :=
  ((reg.map Prod.fst).dedup.filter (fun k => decide (k ∉ visited))).length

/-- The visited-set walk never exhausts fuel exceeding the unvisited
key count. -/
theorem walkChain_isSome (reg : RTRegistry) :
    ∀ (fuel : Nat) (visited : List String) (n : String),
      unvisitedCount reg visited < fuel →
      (walkChain reg fuel visited n).isSome = true := by
  intro fuel
  induction fuel with
  | zero => intro visited n h; omega
  | succ m ih =>
    intro visited n h
    rw [walkChain]
    by_cases hv : n ∈ visited
    · rw [if_pos hv]; rfl
    · rw [if_neg hv]
      cases hl : lookupF reg n with
      | none => rfl
      | some po =>
        cases po with
        | none => rfl
        | some p =>
          apply ih
          have hn : n ∈ (reg.map Prod.fst).dedup :=
            List.mem_dedup.mpr
              (List.mem_map_of_mem Prod.fst (lookupF_mem reg n _ hl))
          have hdec : unvisitedCount reg (visited ++ [n]) <
              unvisitedCount reg visited := by
            refine length_filter_lt _ _ _ ?_ n hn ?_ ?_
            · intro x hx
              rw [decide_eq_true_iff] at hx
              rw [decide_eq_true_iff]
              intro hmem
              exact hx (List.mem_append_left _ hmem)
            · rw [decide_eq_true_iff]; exact hv
            · rw [decide_eq_false_iff_not]
              intro hc
              exact hc (List.mem_append_right _ (List.mem_cons_self n []))
          omega

/-- C3: the inheritance resolution is total, returning a definite
answer on every registry and start name, and a cyclic chain between two
types fails with the cyclic inheritance error. -/
theorem inheritance_walk_total_and_cycle_fails :
    (∀ (reg : RTRegistry) (n : String),
      (resolveInheritance reg n).isSome = true) ∧
    resolveInheritance [("A", some "B"), ("B", some "A")] "A" =
      some (.error (.cyclicInheritance "A")) := by
  constructor
  · intro reg n
    apply walkChain_isSome
    have hle : unvisitedCount reg [] ≤ (reg.map Prod.fst).dedup.length :=
      List.length_filter_le _ _
    omega
  · decide

/- ## C2: absolute URIs -/

/-- Appending character lists whose seam is not a slash pair adds their
double-slash counts. -/
theorem dsCount_append : ∀ (a b : List Char),
    ¬(a.getLast? = some '/' ∧ b.head? = some '/') →
    dsCount (a ++ b) = dsCount a + dsCount b
  | [], b, _ => by simp [dsCount]
  | [x], b, h => by
    cases b with
    | nil => simp [dsCount]
    | cons y bs =>
      have hx : ¬(x = '/' ∧ y = '/') := by
        intro hc
        exact h ⟨by simp [hc.1], by simp [hc.2]⟩
      show dsCount (x :: y :: bs) = dsCount [x] + dsCount (y :: bs)
      have e2 : dsCount (x :: y :: bs) =
          (if x = '/' ∧ y = '/' then 1 else 0) + dsCount (y :: bs) := rfl
      rw [e2, if_neg hx]
      simp [dsCount]
  | x :: x2 :: as, b, h => by
    have ih := dsCount_append (x2 :: as) b (by
      intro hc
      exact h ⟨by rw [List.getLast?_cons_cons]; exact hc.1, hc.2⟩)
    have e1 : (x :: x2 :: as) ++ b = x :: ((x2 :: as) ++ b) := rfl
    rw [e1]
    have e2 : dsCount (x :: ((x2 :: as) ++ b)) =
        (if x = '/' ∧ x2 = '/' then 1 else 0) + dsCount ((x2 :: as) ++ b) :=
      rfl
    have e3 : dsCount (x :: x2 :: as) =
        (if x = '/' ∧ x2 = '/' then 1 else 0) + dsCount (x2 :: as) := rfl
    rw [e2, e3, ih]
    omega

/-- The last element of an appended non-empty list is its own last
element. -/
theorem getLast?_append_of_ne_nil {α : Type} (a b : List α) (hb : b ≠ []) :
    (a ++ b).getLast? = b.getLast? := by
  rw [List.getLast?_append, List.getLast?_eq_getLast b hb]
  rfl

/-- Along a well-formed chain the appended URI neither ends in a slash
nor gains any double slash beyond those of its parts. -/
theorem absUri_structure (base : List Char) :
    ∀ n : RNodeT, base.getLast? ≠ some '/' →
      (∀ p ∈ pathChain n, WfSegment p) →
      (base ++ (fullPath n).data).getLast? ≠ some '/' ∧
      dsCount (base ++ (fullPath n).data) =
        dsCount base + ((pathChain n).map (fun p => dsCount p.data)).sum
  | .top p, hb, hw => by
    have hp : WfSegment p := hw p (by simp [pathChain])
    have hne : p.data ≠ [] := by
      intro h0
      have h1 := hp.1
      rw [h0] at h1
      cases h1
    simp only [fullPath, pathChain]
    constructor
    · rw [getLast?_append_of_ne_nil _ _ hne]
      exact hp.2
    · rw [dsCount_append base p.data (fun hc => hb hc.1)]
      simp
  | .child p par, hb, hw => by
    have hp : WfSegment p := hw p (by simp [pathChain])
    have hw2 : ∀ q ∈ pathChain par, WfSegment q := fun q hq =>
      hw q (by simp [pathChain, hq])
    obtain ⟨ih1, ih2⟩ := absUri_structure base par hb hw2
    have hne : p.data ≠ [] := by
      intro h0
      have h1 := hp.1
      rw [h0] at h1
      cases h1
    have e1 : (fullPath (RNodeT.child p par)).data =
        (fullPath par).data ++ p.data := by
      show (fullPath par ++ p).data = _
      rw [String.data_append]
    constructor
    · rw [e1, ← List.append_assoc, getLast?_append_of_ne_nil _ _ hne]
      exact hp.2
    · rw [e1, ← List.append_assoc,
        dsCount_append _ p.data (fun hc => ih1 hc.1), ih2]
      simp [pathChain]
      omega

/-- Segment concatenation distributes over list append. -/
theorem concatPaths_append : ∀ (l1 l2 : List String),
    concatPaths (l1 ++ l2) = concatPaths l1 ++ concatPaths l2
  | [], l2 => by
    show concatPaths l2 = "" ++ concatPaths l2
    rw [String.empty_append]
  | p :: rest, l2 => by
    show p ++ concatPaths (rest ++ l2) = (p ++ concatPaths rest) ++ concatPaths l2
    rw [concatPaths_append rest l2, String.append_assoc]

/-- The full path of a node is the concatenation of its path chain. -/
theorem fullPath_eq_concat : ∀ n : RNodeT,
    fullPath n = concatPaths (pathChain n)
  | .top p => by
    show p = concatPaths [p]
    show p = p ++ ""
    rw [String.append_empty]
  | .child p par => by
    show fullPath par ++ p = concatPaths (pathChain par ++ [p])
    rw [concatPaths_append, fullPath_eq_concat par]
    show _ = concatPaths (pathChain par) ++ (p ++ "")
    rw [String.append_empty]

/-- Every segment of a chain occurs verbatim inside the concatenation
of the chain. -/
theorem seg_infix_concat : ∀ (chain : List String) (p : String),
    p ∈ chain → p.data <:+: (concatPaths chain).data
  | [], p, hp => absurd hp (List.not_mem_nil p)
  | q :: rest, p, hp => by
    rcases List.mem_cons.mp hp with rfl | h2
    · show p.data <:+: (p ++ concatPaths rest).data
      rw [String.data_append]
      exact ⟨[], (concatPaths rest).data, by simp⟩
    · have ih := seg_infix_concat rest p h2
      show p.data <:+: (q ++ concatPaths rest).data
      rw [String.data_append]
      obtain ⟨s, t, hst⟩ := ih
      exact ⟨q.data ++ s, t, by rw [← hst]; simp⟩

/-- C2: the absolute URI of a node is the base URI concatenated with
the ordered chain of path segments from the top-level ancestor down to
the node, the joins introduce no double slashes, and every segment,
placeholders included, occurs verbatim in the result. -/
theorem absolute_uri_correct (base : String) (n : RNodeT)
    (hb : base.data.getLast? ≠ some '/')
    (hw : ∀ p ∈ pathChain n, WfSegment p) :
    absolute_uri base n = base ++ concatPaths (pathChain n) ∧
    dsCount (absolute_uri base n).data =
      dsCount base.data + ((pathChain n).map (fun p => dsCount p.data)).sum ∧
    ∀ p ∈ pathChain n, p.data <:+: (absolute_uri base n).data := by
  have hdata : (absolute_uri base n).data = base.data ++ (fullPath n).data := by
    rw [absolute_uri, String.data_append]
  obtain ⟨h1, h2⟩ := absUri_structure base.data n hb hw
  refine ⟨?_, ?_, ?_⟩
  · rw [absolute_uri, fullPath_eq_concat]
  · rw [hdata]
    exact h2
  · intro p hp
    rw [hdata]
    have hi := seg_infix_concat (pathChain n) p hp
    rw [← fullPath_eq_concat] at hi
    obtain ⟨s, t, hst⟩ := hi
    exact ⟨base.data ++ s, t, by rw [← hst]; simp⟩

/-- Closed instance of the C2 theorem at a concrete base URI and a
two-level resource chain with a placeholder segment. -/
theorem absolute_uri_correct_witness :
    ("https://api.example.com" : String).data.getLast? ≠ some '/' ∧
    (∀ p ∈ pathChain (RNodeT.child "/{id}" (RNodeT.top "/widgets")),
      WfSegment p) ∧
    (absolute_uri "https://api.example.com"
        (RNodeT.child "/{id}" (RNodeT.top "/widgets")) =
      "https://api.example.com" ++
        concatPaths (pathChain (RNodeT.child "/{id}" (RNodeT.top "/widgets"))) ∧
    dsCount (absolute_uri "https://api.example.com"
        (RNodeT.child "/{id}" (RNodeT.top "/widgets"))).data =
      dsCount ("https://api.example.com" : String).data +
        ((pathChain (RNodeT.child "/{id}" (RNodeT.top "/widgets"))).map
          (fun p => dsCount p.data)).sum ∧
    ∀ p ∈ pathChain (RNodeT.child "/{id}" (RNodeT.top "/widgets")),
      p.data <:+: (absolute_uri "https://api.example.com"
        (RNodeT.child "/{id}" (RNodeT.top "/widgets"))).data) :=
  ⟨by decide, by decide, absolute_uri_correct _ _ (by decide) (by decide)⟩

/- ## C1: merge precedence -/

/-- Looking up appended association lists tries the left list first. -/
theorem lookupF_append {β : Type} :
    ∀ (l1 l2 : List (String × β)) (k : String),
      lookupF (l1 ++ l2) k = match lookupF l1 k with
        | some v => some v
        | none => lookupF l2 k
  | [], l2, k => by simp [lookupF]
  | (k0, v0) :: rest, l2, k => by
    by_cases hk : k0 = k
    · subst hk
      rw [List.cons_append, lookupF, if_pos rfl, lookupF, if_pos rfl]
    · rw [List.cons_append, lookupF, if_neg hk, lookupF, if_neg hk]
      exact lookupF_append rest l2 k

/-- Replacing an existing key makes its lookup the new tag. -/
theorem lookupF_replaceEntry_self :
    ∀ (acc : TaggedFields) (k : String) (t t0 : Tagged),
      lookupF acc k = some t0 →
      lookupF (replaceEntry acc k t) k = some t
  | [], k, t, t0, h => by simp [lookupF] at h
  | (k0, t1) :: rest, k, t, t0, h => by
    by_cases hk : k0 = k
    · subst hk
      rw [replaceEntry, if_pos rfl, lookupF, if_pos rfl]
    · rw [lookupF, if_neg hk] at h
      rw [replaceEntry, if_neg hk, lookupF, if_neg hk]
      exact lookupF_replaceEntry_self rest k t t0 h

/-- Replacing one key leaves the lookup of other keys unchanged. -/
theorem lookupF_replaceEntry_other :
    ∀ (acc : TaggedFields) (k : String) (t : Tagged) (k2 : String),
      k2 ≠ k → lookupF (replaceEntry acc k t) k2 = lookupF acc k2
  | [], _, _, _, _ => rfl
  | (k0, t1) :: rest, k, t, k2, hne => by
    by_cases hk : k0 = k
    · subst hk
      rw [replaceEntry, if_pos rfl, lookupF, lookupF,
        if_neg (fun hc => hne hc.symm), if_neg (fun hc => hne hc.symm)]
    · rw [replaceEntry, if_neg hk]
      by_cases h2 : k0 = k2
      · subst h2
        rw [lookupF, if_pos rfl, lookupF, if_pos rfl]
      · rw [lookupF, if_neg h2, lookupF, if_neg h2]
        exact lookupF_replaceEntry_other rest k t k2 hne

/-- Entries after a replacement come from the original list or are the
replacement itself. -/
theorem mem_replaceEntry :
    ∀ (acc : TaggedFields) (k : String) (t : Tagged) (e : String × Tagged),
      e ∈ replaceEntry acc k t → e ∈ acc ∨ e = (k, t)
  | [], _, _, e, h => by simp [replaceEntry] at h
  | (k0, t1) :: rest, k, t, e, h => by
    by_cases hk : k0 = k
    · subst hk
      rw [replaceEntry, if_pos rfl] at h
      rcases List.mem_cons.mp h with rfl | h2
      · exact Or.inr rfl
      · exact Or.inl (List.mem_cons_of_mem _ h2)
    · rw [replaceEntry, if_neg hk] at h
      rcases List.mem_cons.mp h with rfl | h2
      · exact Or.inl (List.mem_cons_self _ _)
      · rcases mem_replaceEntry rest k t e h2 with h3 | h3
        · exact Or.inl (List.mem_cons_of_mem _ h3)
        · exact Or.inr h3

/-- Setting one field leaves the lookup of other keys unchanged. -/
theorem lookupF_setField_other (acc : TaggedFields) (k v : String) (r : Nat)
    (k2 : String) (hne : k2 ≠ k) :
    lookupF (setField acc k v r) k2 = lookupF acc k2 := by
  rw [setField]
  cases h : lookupF acc k with
  | some t =>
    show lookupF (if t.rank ≤ r then replaceEntry acc k ⟨v, r⟩ else acc) k2 =
      lookupF acc k2
    by_cases hr : t.rank ≤ r
    · rw [if_pos hr]
      exact lookupF_replaceEntry_other acc k _ k2 hne
    · rw [if_neg hr]
  | none =>
    show lookupF (acc ++ [(k, (⟨v, r⟩ : Tagged))]) k2 = lookupF acc k2
    rw [lookupF_append]
    cases h2 : lookupF acc k2 with
    | some v2 => rfl
    | none =>
      show lookupF [(k, (⟨v, r⟩ : Tagged))] k2 = none
      rw [lookupF, if_neg (fun hc => hne hc.symm)]
      rfl

/-- Setting a field whose present rank, if any, does not exceed the new
rank makes the lookup the new tag. -/
theorem lookupF_setField_self (acc : TaggedFields) (k v : String) (r : Nat)
    (hcond : ∀ t0, lookupF acc k = some t0 → t0.rank ≤ r) :
    lookupF (setField acc k v r) k = some ⟨v, r⟩ := by
  rw [setField]
  cases h : lookupF acc k with
  | some t =>
    show lookupF (if t.rank ≤ r then replaceEntry acc k ⟨v, r⟩ else acc) k =
      some ⟨v, r⟩
    rw [if_pos (hcond t h)]
    exact lookupF_replaceEntry_self acc k _ t h
  | none =>
    show lookupF (acc ++ [(k, (⟨v, r⟩ : Tagged))]) k = some ⟨v, r⟩
    rw [lookupF_append, h]
    show (if k = k then some (⟨v, r⟩ : Tagged) else none) = some ⟨v, r⟩
    rw [if_pos rfl]

/-- Setting a field below the rank already present changes nothing. -/
theorem setField_high (acc : TaggedFields) (k v : String) (r : Nat)
    (t : Tagged) (h : lookupF acc k = some t) (hr : r < t.rank) :
    setField acc k v r = acc := by
  rw [setField, h]
  show (if t.rank ≤ r then replaceEntry acc k ⟨v, r⟩ else acc) = acc
  rw [if_neg (by omega)]

/-- Entries after setting a field come from the original list or are
the new tagged entry. -/
theorem mem_setField (acc : TaggedFields) (k v : String) (r : Nat)
    (e : String × Tagged) (h : e ∈ setField acc k v r) :
    e ∈ acc ∨ e = (k, ⟨v, r⟩) := by
  rw [setField] at h
  cases hl : lookupF acc k with
  | some t =>
    rw [hl] at h
    replace h : e ∈ (if t.rank ≤ r then replaceEntry acc k ⟨v, r⟩ else acc) :=
      h
    by_cases hr : t.rank ≤ r
    · rw [if_pos hr] at h
      exact mem_replaceEntry acc k _ e h
    · rw [if_neg hr] at h
      exact Or.inl h
  | none =>
    rw [hl] at h
    replace h : e ∈ acc ++ [(k, (⟨v, r⟩ : Tagged))] := h
    rcases List.mem_append.mp h with h2 | h2
    · exact Or.inl h2
    · exact Or.inr (List.mem_singleton.mp h2)

/-- The empty overlay changes nothing. -/
theorem applyOverlay_nil (acc : TaggedFields) (r : Nat) :
    applyOverlay acc [] r = acc := rfl

/-- One overlay step sets its head field then applies the tail. -/
theorem applyOverlay_cons (acc : TaggedFields) (k0 v0 : String)
    (ov : Fields) (r : Nat) :
    applyOverlay acc ((k0, v0) :: ov) r =
      applyOverlay (setField acc k0 v0 r) ov r := rfl

/-- An overlay not carrying a key leaves its lookup unchanged. -/
theorem lookupF_applyOverlay_not_mem :
    ∀ (ov : Fields) (acc : TaggedFields) (r : Nat) (k : String),
      k ∉ ov.map Prod.fst →
      lookupF (applyOverlay acc ov r) k = lookupF acc k
  | [], acc, r, k, _ => rfl
  | (k0, v0) :: rest, acc, r, k, h => by
    have hk : k ≠ k0 := by
      intro hc
      subst hc
      exact h (by simp)
    rw [applyOverlay_cons,
      lookupF_applyOverlay_not_mem rest _ r k (fun hc => h (by simp [hc])),
      lookupF_setField_other acc k0 v0 r k hk]

/-- A field of strictly higher rank survives an overlay. -/
theorem lookupF_applyOverlay_high :
    ∀ (ov : Fields) (acc : TaggedFields) (r : Nat) (k : String) (t : Tagged),
      lookupF acc k = some t → r < t.rank →
      lookupF (applyOverlay acc ov r) k = some t
  | [], acc, r, k, t, h, _ => h
  | (k0, v0) :: rest, acc, r, k, t, h, hr => by
    by_cases hk : k0 = k
    · subst hk
      rw [applyOverlay_cons, setField_high acc _ v0 r t h hr]
      exact lookupF_applyOverlay_high rest acc r _ t h hr
    · rw [applyOverlay_cons]
      apply lookupF_applyOverlay_high rest _ r k t _ hr
      rw [lookupF_setField_other acc k0 v0 r k (fun hc => hk hc.symm)]
      exact h

/-- An overlay carrying a key, against a field of rank at most the
overlay rank, wins with its value at the overlay rank. -/
theorem lookupF_applyOverlay_wins :
    ∀ (ov : Fields) (acc : TaggedFields) (r : Nat) (k v : String),
      (ov.map Prod.fst).Nodup →
      lookupF ov k = some v →
      (∀ t0, lookupF acc k = some t0 → t0.rank ≤ r) →
      lookupF (applyOverlay acc ov r) k = some ⟨v, r⟩
  | [], _, _, _, _, _, h, _ => by simp [lookupF] at h
  | (k0, v0) :: rest, acc, r, k, v, hnd, hov, hcond => by
    rw [List.map_cons] at hnd
    by_cases hk : k0 = k
    · subst hk
      rw [lookupF, if_pos rfl] at hov
      obtain rfl : v0 = v := Option.some.inj hov
      rw [applyOverlay_cons,
        lookupF_applyOverlay_not_mem rest _ r k0 (List.nodup_cons.mp hnd).1,
        lookupF_setField_self acc k0 v0 r hcond]
    · rw [lookupF, if_neg hk] at hov
      rw [applyOverlay_cons]
      apply lookupF_applyOverlay_wins rest _ r k v (List.nodup_cons.mp hnd).2
        hov
      intro t0 ht0
      rw [lookupF_setField_other acc k0 v0 r k (fun hc => hk hc.symm)] at ht0
      exact hcond t0 ht0

/-- Entries after an overlay come from the original list or from the
overlay at its rank. -/
theorem mem_applyOverlay :
    ∀ (ov : Fields) (acc : TaggedFields) (r : Nat) (e : String × Tagged),
      e ∈ applyOverlay acc ov r →
      e ∈ acc ∨ ∃ kv ∈ ov, e = (kv.1, ⟨kv.2, r⟩)
  | [], acc, r, e, h => Or.inl h
  | (k0, v0) :: rest, acc, r, e, h => by
    rw [applyOverlay_cons] at h
    rcases mem_applyOverlay rest _ r e h with h2 | ⟨kv, hkv, rfl⟩
    · rcases mem_setField acc k0 v0 r e h2 with h3 | rfl
      · exact Or.inl h3
      · exact Or.inr ⟨(k0, v0), List.mem_cons_self _ _, rfl⟩
    · exact Or.inr ⟨kv, List.mem_cons_of_mem _ hkv, rfl⟩

/-- Applying no traits changes nothing. -/
theorem applyTraits_nil (acc : TaggedFields) : applyTraits acc [] = acc := rfl

/-- One trait application step. -/
theorem applyTraits_cons (acc : TaggedFields) (t : Fields)
    (rest : List Fields) :
    applyTraits acc (t :: rest) = applyTraits (applyOverlay acc t 1) rest :=
  rfl

/-- A field of rank above the trait rank survives all trait overlays. -/
theorem lookupF_applyTraits_high :
    ∀ (traits : List Fields) (acc : TaggedFields) (k : String) (t : Tagged),
      lookupF acc k = some t → 1 < t.rank →
      lookupF (applyTraits acc traits) k = some t
  | [], acc, k, t, h, _ => h
  | t0 :: rest, acc, k, t, h, hr => by
    rw [applyTraits_cons]
    exact lookupF_applyTraits_high rest _ k t
      (lookupF_applyOverlay_high t0 acc 1 k t h hr) hr

/-- When the trait list contributes nothing for a key, no trait carries
that key. -/
theorem traitsValue_none_all :
    ∀ (traits : List Fields) (k : String),
      traitsValue traits k = none → ∀ t ∈ traits, lookupF t k = none
  | [], _, _, t, ht => absurd ht (List.not_mem_nil t)
  | t0 :: rest, k, h, t, ht => by
    rw [traitsValue] at h
    cases hr : traitsValue rest k with
    | some v => rw [hr] at h; cases h
    | none =>
      rw [hr] at h
      rcases List.mem_cons.mp ht with rfl | h2
      · exact h
      · exact traitsValue_none_all rest k hr t h2

/-- Traits carrying no value for a key leave its lookup unchanged. -/
theorem lookupF_applyTraits_not_mem :
    ∀ (traits : List Fields) (acc : TaggedFields) (k : String),
      (∀ t ∈ traits, lookupF t k = none) →
      lookupF (applyTraits acc traits) k = lookupF acc k
  | [], acc, k, _ => rfl
  | t0 :: rest, acc, k, h => by
    rw [applyTraits_cons,
      lookupF_applyTraits_not_mem rest _ k
        (fun t ht => h t (List.mem_cons_of_mem _ ht)),
      lookupF_applyOverlay_not_mem t0 acc 1 k
        ((lookupF_eq_none_iff t0 k).mp (h t0 (List.mem_cons_self _ _)))]

/-- When the trait list contributes a value for a key, against a field
of rank at most the trait rank, the last contributing trait wins. -/
theorem lookupF_applyTraits_wins :
    ∀ (traits : List Fields) (acc : TaggedFields) (k v : String),
      (∀ t ∈ traits, (t.map Prod.fst).Nodup) →
      traitsValue traits k = some v →
      (∀ t0, lookupF acc k = some t0 → t0.rank ≤ 1) →
      lookupF (applyTraits acc traits) k = some ⟨v, 1⟩
  | [], _, _, _, _, h, _ => by simp [traitsValue] at h
  | t0 :: rest, acc, k, v, hnd, htv, hcond => by
    rw [applyTraits_cons]
    cases hr : traitsValue rest k with
    | some v2 =>
      have hv2 : v2 = v := by
        rw [traitsValue, hr] at htv
        exact Option.some.inj htv
      subst hv2
      apply lookupF_applyTraits_wins rest _ k v2
        (fun t ht => hnd t (List.mem_cons_of_mem _ ht)) hr
      intro u hu
      by_cases hmem : k ∈ t0.map Prod.fst
      · obtain ⟨v3, hv3⟩ : ∃ v3, lookupF t0 k = some v3 := by
          cases hl : lookupF t0 k with
          | some v3 => exact ⟨v3, rfl⟩
          | none => exact absurd hmem ((lookupF_eq_none_iff t0 k).mp hl)
        rw [lookupF_applyOverlay_wins t0 acc 1 k v3
          (hnd t0 (List.mem_cons_self _ _)) hv3 hcond] at hu
        obtain rfl := Option.some.inj hu
        exact Nat.le_refl 1
      · rw [lookupF_applyOverlay_not_mem t0 acc 1 k hmem] at hu
        exact hcond u hu
    | none =>
      have hl0 : lookupF t0 k = some v := by
        rw [traitsValue, hr] at htv
        exact htv
      rw [lookupF_applyTraits_not_mem rest _ k (traitsValue_none_all rest k hr),
        lookupF_applyOverlay_wins t0 acc 1 k v
          (hnd t0 (List.mem_cons_self _ _)) hl0 hcond]

/-- Lookup over tagged raw fields is the raw lookup with the tag. -/
theorem lookupF_tagFields :
    ∀ (f : Fields) (r : Nat) (k : String),
      lookupF (tagFields f r) k =
        (lookupF f k).map (fun v => (⟨v, r⟩ : Tagged))
  | [], r, k => rfl
  | (k0, v0) :: rest, r, k => by
    show (if k0 = k then some (⟨v0, r⟩ : Tagged)
        else lookupF (tagFields rest r) k) =
      (if k0 = k then some v0 else lookupF rest k).map
        (fun v => (⟨v, r⟩ : Tagged))
    by_cases hk : k0 = k
    · rw [if_pos hk, if_pos hk]
      rfl
    · rw [if_neg hk, if_neg hk]
      exact lookupF_tagFields rest r k

/-- Entries of tagged raw fields carry the tagging rank. -/
theorem mem_tagFields (f : Fields) (r : Nat) (e : String × Tagged)
    (h : e ∈ tagFields f r) : e.2.rank = r := by
  rw [tagFields] at h
  obtain ⟨kv, hkv, rfl⟩ := List.mem_map.mp h
  rfl

/-- Entries after trait application come from the original list or from
some trait at the trait rank. -/
theorem mem_applyTraits :
    ∀ (traits : List Fields) (acc : TaggedFields) (e : String × Tagged),
      e ∈ applyTraits acc traits →
      e ∈ acc ∨ ∃ t ∈ traits, ∃ kv ∈ t, e = (kv.1, ⟨kv.2, 1⟩)
  | [], acc, e, h => Or.inl h
  | t0 :: rest, acc, e, h => by
    rw [applyTraits_cons] at h
    rcases mem_applyTraits rest _ e h with h2 | ⟨t, ht, kv, hkv, rfl⟩
    · rcases mem_applyOverlay t0 acc 1 e h2 with h3 | ⟨kv, hkv, rfl⟩
      · exact Or.inl h3
      · exact Or.inr ⟨t0, List.mem_cons_self _ _, kv, hkv, rfl⟩
    · exact Or.inr ⟨t, List.mem_cons_of_mem _ ht, kv, hkv, rfl⟩

/-- Before the own overlay every merged entry has rank at most the
resource-type rank. -/
theorem rank_le_two_of_mem (inherited tb : Fields) (traits : List Fields)
    (e : String × Tagged)
    (h : e ∈ applyTraits (applyOverlay (tagFields inherited 0) tb 2) traits) :
    e.2.rank ≤ 2 := by
  rcases mem_applyTraits traits _ e h with h2 | ⟨t, ht, kv, hkv, rfl⟩
  · rcases mem_applyOverlay tb _ 2 e h2 with h3 | ⟨kv, hkv, rfl⟩
    · rw [mem_tagFields inherited 0 e h3]
      omega
    · exact Nat.le_refl 2
  · exact Nat.le_succ 1

/-- C1: with a resource-type block matching the resource method, the
resolved value of every field obeys the total precedence order: own
over type over traits, in declared order, over inherited. -/
theorem merge_precedence_total_order (inherited own : Fields)
    (traits : List Fields) (rt : RType) (m : String) (tb : Fields)
    (hblock : lookupF rt.methodBlocks m = some tb)
    (hown : (own.map Prod.fst).Nodup)
    (htb : (tb.map Prod.fst).Nodup)
    (htr : ∀ t ∈ traits, (t.map Prod.fst).Nodup)
    (k : String) :
    resolvedValue (resolveFields inherited rt m traits own) k =
      match lookupF own k with
      | some v => some v
      | none =>
        match lookupF tb k with
        | some v => some v
        | none =>
          match traitsValue traits k with
          | some v => some v
          | none => lookupF inherited k := by
  have hsel : selectBlock rt m = tb := by rw [selectBlock, hblock]
  rw [resolveFields, hsel, resolvedValue]
  cases ho : lookupF own k with
  | some v =>
    rw [lookupF_applyOverlay_wins own _ 3 k v hown ho (fun t0 ht0 => by
      have hb : t0.rank ≤ 2 := rank_le_two_of_mem inherited tb traits (k, t0)
        (lookupF_mem _ k t0 ht0)
      omega)]
    rfl
  | none =>
    have hnmem : k ∉ own.map Prod.fst := (lookupF_eq_none_iff own k).mp ho
    rw [lookupF_applyOverlay_not_mem own _ 3 k hnmem]
    cases htbk : lookupF tb k with
    | some v =>
      have hA2 : lookupF (applyOverlay (tagFields inherited 0) tb 2) k =
          some ⟨v, 2⟩ := by
        apply lookupF_applyOverlay_wins tb _ 2 k v htb htbk
        intro t0 ht0
        rw [lookupF_tagFields] at ht0
        cases hli : lookupF inherited k with
        | some v0 =>
          rw [hli] at ht0
          obtain rfl := Option.some.inj ht0
          exact Nat.zero_le 2
        | none => rw [hli] at ht0; cases ht0
      rw [lookupF_applyTraits_high traits _ k ⟨v, 2⟩ hA2 Nat.one_lt_two]
      rfl
    | none =>
      have htbnm : k ∉ tb.map Prod.fst := (lookupF_eq_none_iff tb k).mp htbk
      have hA3 : lookupF (applyOverlay (tagFields inherited 0) tb 2) k =
          (lookupF inherited k).map (fun v => (⟨v, 0⟩ : Tagged)) := by
        rw [lookupF_applyOverlay_not_mem tb _ 2 k htbnm, lookupF_tagFields]
      cases htv : traitsValue traits k with
      | some v =>
        rw [lookupF_applyTraits_wins traits _ k v htr htv (fun t0 ht0 => by
          rw [hA3] at ht0
          cases hli : lookupF inherited k with
          | some v0 =>
            rw [hli] at ht0
            obtain rfl := Option.some.inj ht0
            exact Nat.zero_le 1
          | none => rw [hli] at ht0; cases ht0)]
        rfl
      | none =>
        rw [lookupF_applyTraits_not_mem traits _ k
          (traitsValue_none_all traits k htv), hA3]
        cases hli : lookupF inherited k with
        | some v0 => rfl
        | none => rfl

/-- Closed instance of the C1 theorem: the own description overrides
the type block description, while the trait page parameter fills the
gap left open by the type block and the inherited media field shows
through where nothing overlays it. -/
theorem merge_precedence_total_order_witness :
    lookupF (RType.mk "collection"
        [("get", [("description", "list"), ("page", "integer")])]
        []).methodBlocks "get" =
      some [("description", "list"), ("page", "integer")] ∧
    (([("description", "custom")] : Fields).map Prod.fst).Nodup ∧
    (([("description", "list"), ("page", "integer")] : Fields).map
      Prod.fst).Nodup ∧
    (∀ t ∈ [[("page", "number"), ("lang", "en")]],
      (t.map (Prod.fst (β := String))).Nodup) ∧
    resolvedValue (resolveFields [("media", "json")]
        (RType.mk "collection"
          [("get", [("description", "list"), ("page", "integer")])] [])
        "get" [[("page", "number"), ("lang", "en")]]
        [("description", "custom")]) "description" = some "custom" :=
  ⟨by decide, by decide, by decide, by decide,
    (merge_precedence_total_order [("media", "json")]
        [("description", "custom")] [[("page", "number"), ("lang", "en")]]
        (RType.mk "collection"
          [("get", [("description", "list"), ("page", "integer")])] [])
        "get" [("description", "list"), ("page", "integer")]
        (by decide) (by decide) (by decide) (by decide)
        "description").trans (by decide)⟩

end Ramlfications
